import Mathlib

/-!
Verification of the numeric kernel, index partitioner, strategy registry and
builder factories of the nest-simulator sources.

The numeric kernel header `src/libnestutil/numerics.h` contains the inline
fallback implementation of `expm1`; it only declares `ld_round`, `dround`,
`mod_inverse` and `first_index`, whose translation unit (`numerics.cpp`) is
not among the provided sources.  Those four functions are therefore modelled
from the specification (sections 4.1 and 4.2), as is the strategy registry of
section 4.3.  The builder factories are translated from
`src/nestkernel/conn_builder_factory.h`.

Doubles are modelled as rationals; the machine-dependent library functions
`std::exp` and `std::log(2.0)` that `expm1` calls are passed in as parameters,
and `long` arithmetic is modelled on `ℤ`.  A C++ function that can fail
(assertion, sentinel return) is modelled with `Option` or `Except`.
-/

/-- Machine epsilon of IEEE-754 double precision,
`std::numeric_limits<double>::epsilon() = 2^-52`. -/
def machineEpsilon : ℚ := 1 / 2 ^ 52

/-- The Taylor-series loop of the fallback branch of `numerics::expm1`
(`src/libnestutil/numerics.h` lines 72-83):

  while ( std::abs( term ) > std::abs( sum ) * epsilon ) {
    sum += term; ++n; term *= x / n;
  }
  return sum;

The while loop is modelled with explicit fuel: `none` means the fuel was
exhausted before the guard became false, so termination of the loop within
`fuel` iterations is exactly `isSome` of this function. -/
def numerics.expm1Go (x : ℚ) : ℚ → ℚ → ℕ → ℕ → Option ℚ
  | sum, term, _, 0 =>
      if |term| > |sum| * machineEpsilon then none else some sum
  | sum, term, n, fuel + 1 =>
      if |term| > |sum| * machineEpsilon then
        numerics.expm1Go x (sum + term) (term * (x / ((n : ℚ) + 1))) (n + 1) fuel
      else some sum

/-- The fallback (non-platform-expm1) branch of `numerics::expm1`
(`src/libnestutil/numerics.h` lines 59-84).  `expFn` stands for the external
library function `std::exp` and `ln2` for the value of `std::log(2.0)`
(a double, hence a rational); the series loop is `numerics.expm1Go`. -/
def numerics.expm1 (expFn : ℚ → ℚ) (ln2 : ℚ) (fuel : ℕ) (x : ℚ) : Option ℚ :=
  if x = 0 then some 0
  else if |x| > ln2 then some (expFn x - 1)
  else numerics.expm1Go x x (x * x / 2) 2 fuel

/-- Modelled from the spec: `ld_round` is declared in
`src/libnestutil/numerics.h` line 112 but its body is not among the sources.
Section 4.1 specifies round to nearest with ties toward positive infinity,
which is floor of `x + 1/2`. -/
def ld_round (x : ℚ) : ℤ := ⌊x + 1 / 2⌋

/-- Modelled from the spec: `dround` is declared in
`src/libnestutil/numerics.h` line 121 but its body is not among the sources.
Same rounding as `ld_round`, returned as a double. -/
def dround (x : ℚ) : ℚ := ((⌊x + 1 / 2⌋ : ℤ) : ℚ)

/-- Modelled from the spec: `mod_inverse` is declared in
`src/libnestutil/numerics.h` line 137 but its body is not among the sources.
Section 4.1 prescribes the extended Euclidean algorithm with precondition
`gcd(a, m) == 1`, failing loudly otherwise; the loud failure (assertion) is
modelled as `none`.  The Bezout coefficient `Int.gcdA` is the output of the
extended Euclidean algorithm; the result is reduced to `[0, m)`. -/
def mod_inverse (a m : ℤ) : Option ℤ :=
  if Int.gcd a m = 1 then some (Int.gcdA a m % m) else none

/-- Modelled from the spec: `first_index` is declared in
`src/libnestutil/numerics.h` line 163 but its body is not among the sources.
Section 4.2 prescribes: with `g = gcd(step, period)` (step in absolute value,
which is what `Int.gcd` computes), return the no-solution sentinel if `g` does
not divide `phase - phase0`; otherwise multiply the modular inverse of
`step/g` modulo `period/g` by `((phase - phase0)/g) mod (period/g)`, reduce
modulo `period/g`, verify the original congruence exactly, and return the
minimal index.  The sentinel `invalid_index` is modelled as `none`. -/
def first_index (period phase0 step phase : ℤ) : Option ℤ :=
  let g : ℤ := Int.gcd step period
  if (phase - phase0) % g ≠ 0 then none
  else
    (mod_inverse (step / g) (period / g)).bind fun inv =>
      let idx := inv * (((phase - phase0) / g) % (period / g)) % (period / g)
      if (phase0 + idx * step - phase) % period = 0 then some idx else none

/-- Modelled from the spec: error conditions of the strategy registry
(sections 4.3 and 7); the registry implementation is not among the sources. -/
inductive RegistryError where
  | duplicateRegistration
  | unknownStrategy
deriving DecidableEq

/-- Modelled from the spec: `register(family, key, factory)` of section 4.3;
the registry implementation is not among the sources.  One family of the
registry is an association list from strategy keys to factories; registering
an already-bound key fails with the duplicate-key condition and leaves the
registry untouched. -/
def registerFactory {F : Type} (reg : List (String × F)) (key : String) (factory : F) :
    Except RegistryError (List (String × F)) :=
  if (reg.lookup key).isSome then Except.error RegistryError.duplicateRegistration
  else Except.ok ((key, factory) :: reg)

/-- A `BipartiteConnBuilder` instance as constructed by
`ConnBuilderFactory<ConnBuilderType>::create`
(`src/nestkernel/conn_builder_factory.h` lines 70-78): it is built from
exactly the five constructor arguments, in order.  The opaque C++ types
`NodeCollectionPTR`, `ThirdOutBuilder*` and `DictionaryDatum` are type
parameters. -/
structure BipartiteConnBuilder (NC TO D : Type) where
  sources : NC
  targets : NC
  third_out : TO
  conn_spec : D
  syn_specs : List D

/-- A third-factor builder instance as constructed by
`ThirdConnBuilderFactory<ThirdConnBuilderType>::create`
(`src/nestkernel/conn_builder_factory.h` lines 104-111). -/
structure ThirdConnBuilder (NC D : Type) where
  sources : NC
  targets : NC
  conn_spec : D
  syn_specs : List D

/-- A heap of owned objects, modelling C++ `new`: `next` is the next fresh
address, `objs` maps allocated addresses to objects. -/
structure Heap (Obj : Type) where
  next : ℕ
  objs : List (ℕ × Obj)

/-- Allocation: returns a fresh address holding `o` and the extended heap. -/
def Heap.alloc {Obj : Type} (h : Heap Obj) (o : Obj) : ℕ × Heap Obj :=
  (h.next, { next := h.next + 1, objs := (h.next, o) :: h.objs })

/-- Heap well-formedness: every allocated address is below `next`. -/
def Heap.WF {Obj : Type} (h : Heap Obj) : Prop :=
  ∀ p ∈ h.objs, p.1 < h.next

/-- `ConnBuilderFactory<ConnBuilderType>::create`
(`src/nestkernel/conn_builder_factory.h` lines 70-78):
`return new ConnBuilderType( sources, targets, third_out, conn_spec,
syn_specs );` — allocates a new builder from exactly the given arguments and
returns it (its address) unchanged. -/
def ConnBuilderFactory.create {NC TO D : Type} (h : Heap (BipartiteConnBuilder NC TO D))
    (sources targets : NC) (third_out : TO) (conn_spec : D) (syn_specs : List D) :
    ℕ × Heap (BipartiteConnBuilder NC TO D) :=
  h.alloc { sources := sources, targets := targets, third_out := third_out,
            conn_spec := conn_spec, syn_specs := syn_specs }

/-- `ThirdConnBuilderFactory<ThirdConnBuilderType>::create`
(`src/nestkernel/conn_builder_factory.h` lines 104-111):
`return new ThirdConnBuilderType( sources, targets, conn_spec, syn_specs );` -/
def ThirdConnBuilderFactory.create {NC D : Type} (h : Heap (ThirdConnBuilder NC D))
    (sources targets : NC) (conn_spec : D) (syn_specs : List D) :
    ℕ × Heap (ThirdConnBuilder NC D) :=
  h.alloc { sources := sources, targets := targets, conn_spec := conn_spec,
            syn_specs := syn_specs }

/-- Looking up a key at least as large as every key of the list fails. -/
theorem lookup_eq_none_of_keys_lt {Obj : Type} (l : List (ℕ × Obj)) (k : ℕ)
    (h : ∀ p ∈ l, p.1 < k) : l.lookup k = none := by
  induction l with
  | nil => rfl
  | cons p rest ih =>
    obtain ⟨a, o⟩ := p
    have ha : a < k := h (a, o) (List.mem_cons_self _ _)
    have hne : (k == a) = false := beq_eq_false_iff_ne.mpr (by omega)
    simp only [List.lookup, hne]
    exact ih fun q hq => h q (List.mem_cons_of_mem _ hq)

/-- Lookup at the key just consed on. -/
theorem lookup_cons_self {Obj : Type} (l : List (ℕ × Obj)) (k : ℕ) (o : Obj) :
    ((k, o) :: l).lookup k = some o := by
  simp [List.lookup]

/-- Lookup at a different key skips the head. -/
theorem lookup_cons_ne {Obj : Type} (l : List (ℕ × Obj)) (a k : ℕ) (o : Obj)
    (h : a ≠ k) : ((k, o) :: l).lookup a = l.lookup a := by
  simp only [List.lookup, beq_eq_false_iff_ne.mpr h]

/-- C9: `ConnBuilderFactory<T>::create` returns a freshly constructed instance
(a new address, bound to no object of the incoming heap) holding exactly the
five arguments in order, and leaves every other allocation unchanged
(ownership of the new object passes to the caller); likewise
`ThirdConnBuilderFactory<T>::create` for its four arguments. -/
theorem conn_builder_factories_create_fresh (NC TO D : Type)
    (h1 : Heap (BipartiteConnBuilder NC TO D)) (h2 : Heap (ThirdConnBuilder NC D))
    (hwf1 : h1.WF) (hwf2 : h2.WF)
    (s t : NC) (th : TO) (c : D) (sy : List D) :
    (h1.objs.lookup (ConnBuilderFactory.create h1 s t th c sy).1 = none ∧
      (ConnBuilderFactory.create h1 s t th c sy).2.objs.lookup
          (ConnBuilderFactory.create h1 s t th c sy).1 =
        some { sources := s, targets := t, third_out := th, conn_spec := c,
               syn_specs := sy } ∧
      ∀ b, b ≠ (ConnBuilderFactory.create h1 s t th c sy).1 →
        (ConnBuilderFactory.create h1 s t th c sy).2.objs.lookup b =
          h1.objs.lookup b) ∧
    (h2.objs.lookup (ThirdConnBuilderFactory.create h2 s t c sy).1 = none ∧
      (ThirdConnBuilderFactory.create h2 s t c sy).2.objs.lookup
          (ThirdConnBuilderFactory.create h2 s t c sy).1 =
        some { sources := s, targets := t, conn_spec := c, syn_specs := sy } ∧
      ∀ b, b ≠ (ThirdConnBuilderFactory.create h2 s t c sy).1 →
        (ThirdConnBuilderFactory.create h2 s t c sy).2.objs.lookup b =
          h2.objs.lookup b) := by
  refine ⟨⟨?_, ?_, ?_⟩, ⟨?_, ?_, ?_⟩⟩
  · exact lookup_eq_none_of_keys_lt h1.objs h1.next hwf1
  · exact lookup_cons_self h1.objs h1.next _
  · intro b hb
    exact lookup_cons_ne h1.objs b h1.next _ hb
  · exact lookup_eq_none_of_keys_lt h2.objs h2.next hwf2
  · exact lookup_cons_self h2.objs h2.next _
  · intro b hb
    exact lookup_cons_ne h2.objs b h2.next _ hb

/-- Witness for C9: creating builders from two empty heaps over concrete
argument types. -/
theorem conn_builder_factories_create_fresh_witness :
    ((Heap.mk 0 [] : Heap (BipartiteConnBuilder ℕ ℕ ℕ)).objs.lookup
        (ConnBuilderFactory.create (Heap.mk 0 []) 1 2 3 4 [5]).1 = none ∧
      (ConnBuilderFactory.create (Heap.mk 0 [] : Heap (BipartiteConnBuilder ℕ ℕ ℕ))
          1 2 3 4 [5]).2.objs.lookup
          (ConnBuilderFactory.create (Heap.mk 0 [] : Heap (BipartiteConnBuilder ℕ ℕ ℕ))
            1 2 3 4 [5]).1 =
        some { sources := 1, targets := 2, third_out := 3, conn_spec := 4,
               syn_specs := [5] } ∧
      ∀ b, b ≠ (ConnBuilderFactory.create
          (Heap.mk 0 [] : Heap (BipartiteConnBuilder ℕ ℕ ℕ)) 1 2 3 4 [5]).1 →
        (ConnBuilderFactory.create (Heap.mk 0 [] : Heap (BipartiteConnBuilder ℕ ℕ ℕ))
            1 2 3 4 [5]).2.objs.lookup b =
          (Heap.mk 0 [] : Heap (BipartiteConnBuilder ℕ ℕ ℕ)).objs.lookup b) ∧
    ((Heap.mk 0 [] : Heap (ThirdConnBuilder ℕ ℕ)).objs.lookup
        (ThirdConnBuilderFactory.create (Heap.mk 0 []) 1 2 4 [5]).1 = none ∧
      (ThirdConnBuilderFactory.create (Heap.mk 0 [] : Heap (ThirdConnBuilder ℕ ℕ))
          1 2 4 [5]).2.objs.lookup
          (ThirdConnBuilderFactory.create (Heap.mk 0 [] : Heap (ThirdConnBuilder ℕ ℕ))
            1 2 4 [5]).1 =
        some { sources := 1, targets := 2, conn_spec := 4, syn_specs := [5] } ∧
      ∀ b, b ≠ (ThirdConnBuilderFactory.create
          (Heap.mk 0 [] : Heap (ThirdConnBuilder ℕ ℕ)) 1 2 4 [5]).1 →
        (ThirdConnBuilderFactory.create (Heap.mk 0 [] : Heap (ThirdConnBuilder ℕ ℕ))
            1 2 4 [5]).2.objs.lookup b =
          (Heap.mk 0 [] : Heap (ThirdConnBuilder ℕ ℕ)).objs.lookup b) :=
  conn_builder_factories_create_fresh ℕ ℕ ℕ (Heap.mk 0 []) (Heap.mk 0 [])
    (fun p hp => absurd hp (List.not_mem_nil p))
    (fun p hp => absurd hp (List.not_mem_nil p)) 1 2 3 4 [5]

/-- C10: `expm1(0)` returns exactly `0`: the fallback branch tests `x == 0`
before entering the series and returns `0` immediately, for every choice of
the external `exp` function, of the value of `log(2.0)` and of the loop fuel. -/
theorem expm1_at_zero_is_exact_zero (expFn : ℚ → ℚ) (ln2 : ℚ) (fuel : ℕ) :
    numerics.expm1 expFn ln2 fuel 0 = some 0 := by
  simp [numerics.expm1]

/-- C6: for every integer `n` and every `x` in `[n - 0.5, n + 0.5)`,
`ld_round x` is `n` and `dround x` is `n` as a double: ties exactly halfway
between two integers round toward positive infinity. -/
theorem ld_round_dround_halfup (n : ℤ) (x : ℚ) (h1 : (n : ℚ) - 1 / 2 ≤ x)
    (h2 : x < (n : ℚ) + 1 / 2) : ld_round x = n ∧ dround x = (n : ℚ) := by
  have hfloor : ⌊x + 1 / 2⌋ = n := by
    rw [Int.floor_eq_iff]
    constructor
    · linarith
    · linarith
  refine ⟨hfloor, ?_⟩
  rw [dround, hfloor]

/-- Witness for C6 at `n = 1`, `x = 1/2`: the midpoint `1/2` rounds up to `1`. -/
theorem ld_round_dround_halfup_witness :
    ld_round (1 / 2 : ℚ) = 1 ∧ dround (1 / 2 : ℚ) = ((1 : ℤ) : ℚ) :=
  ld_round_dround_halfup 1 (1 / 2) (by norm_num) (by norm_num)

/-- C5: whenever `gcd(a, m) ≠ 1`, `mod_inverse` fails loudly (modelled as
`none`) instead of returning any integer. -/
theorem mod_inverse_not_coprime_fails (a m : ℤ) (h : Int.gcd a m ≠ 1) :
    mod_inverse a m = none := by
  simp [mod_inverse, h]

/-- Witness for C5 at `a = 2`, `m = 4` where `gcd = 2`. -/
theorem mod_inverse_not_coprime_fails_witness :
    Int.gcd 2 4 ≠ 1 ∧ mod_inverse 2 4 = none :=
  ⟨by decide, mod_inverse_not_coprime_fails 2 4 (by decide)⟩

/-- On coprime inputs `mod_inverse` returns the reduced Bezout coefficient. -/
theorem mod_inverse_coprime_some (a m : ℤ) (h : Int.gcd a m = 1) :
    mod_inverse a m = some (Int.gcdA a m % m) := by
  simp [mod_inverse, h]

/-- The value returned by `mod_inverse` on coprime inputs is a modular
inverse: `a * (gcdA a m % m) ≡ 1 (mod m)`. -/
theorem mod_inverse_mul_modeq (a m : ℤ) (h : Int.gcd a m = 1) :
    a * (Int.gcdA a m % m) ≡ 1 [ZMOD m] := by
  have hb : ((Int.gcd a m : ℤ)) = a * Int.gcdA a m + m * Int.gcdB a m :=
    Int.gcd_eq_gcd_ab a m
  rw [h] at hb
  push_cast at hb
  have h1 : a * Int.gcdA a m ≡ 1 [ZMOD m] := by
    rw [Int.modEq_iff_dvd]
    exact ⟨Int.gcdB a m, by linarith⟩
  have h2 : Int.gcdA a m % m ≡ Int.gcdA a m [ZMOD m] :=
    Int.emod_emod_of_dvd _ dvd_rfl
  calc a * (Int.gcdA a m % m) ≡ a * Int.gcdA a m [ZMOD m] := Int.ModEq.mul_left a h2
    _ ≡ 1 [ZMOD m] := h1

/-- Any `b` with `a * b ≡ 1 (mod m)` is itself coprime to `m`. -/
theorem gcd_eq_one_of_mul_modeq_one (a b m : ℤ) (h : a * b ≡ 1 [ZMOD m]) :
    Int.gcd b m = 1 := by
  have hd : m ∣ 1 - a * b := Int.modEq_iff_dvd.mp h
  obtain ⟨t, ht⟩ := hd
  have hco : IsCoprime b m := ⟨a, t, by linarith⟩
  exact Int.isCoprime_iff_gcd_eq_one.mp hco

/-- C3: for coprime `a, m` with `m > 1`, `mod_inverse` succeeds, its result
`b` satisfies `(a * b) mod m = 1`, and the round trip
`mod_inverse (mod_inverse a m) m mod m = a mod m` holds. -/
theorem mod_inverse_correct_roundtrip (a m : ℤ) (hco : Int.gcd a m = 1)
    (hm : 1 < m) :
    ∃ b c, mod_inverse a m = some b ∧ (a * b) % m = 1 ∧
      mod_inverse b m = some c ∧ c % m = a % m := by
  have h1 : a * (Int.gcdA a m % m) ≡ 1 [ZMOD m] := mod_inverse_mul_modeq a m hco
  have hbco : Int.gcd (Int.gcdA a m % m) m = 1 :=
    gcd_eq_one_of_mul_modeq_one a _ m h1
  have h2 : (Int.gcdA a m % m) * (Int.gcdA (Int.gcdA a m % m) m % m) ≡ 1 [ZMOD m] :=
    mod_inverse_mul_modeq _ m hbco
  refine ⟨Int.gcdA a m % m, Int.gcdA (Int.gcdA a m % m) m % m,
    mod_inverse_coprime_some a m hco, ?_, mod_inverse_coprime_some _ m hbco, ?_⟩
  · have hmod : (a * (Int.gcdA a m % m)) % m = 1 % m := h1
    rw [hmod, Int.emod_eq_of_lt (by norm_num) hm]
  · have hca : Int.gcdA (Int.gcdA a m % m) m % m ≡ a [ZMOD m] := by
      have hx : (Int.gcdA (Int.gcdA a m % m) m % m) * 1 ≡
          (Int.gcdA (Int.gcdA a m % m) m % m) * (a * (Int.gcdA a m % m)) [ZMOD m] :=
        Int.ModEq.mul_left _ h1.symm
      have hy : a * ((Int.gcdA a m % m) * (Int.gcdA (Int.gcdA a m % m) m % m)) ≡
          a * 1 [ZMOD m] := Int.ModEq.mul_left a h2
      calc Int.gcdA (Int.gcdA a m % m) m % m
          = (Int.gcdA (Int.gcdA a m % m) m % m) * 1 := by ring
        _ ≡ (Int.gcdA (Int.gcdA a m % m) m % m) * (a * (Int.gcdA a m % m)) [ZMOD m] := hx
        _ = a * ((Int.gcdA a m % m) * (Int.gcdA (Int.gcdA a m % m) m % m)) := by ring
        _ ≡ a * 1 [ZMOD m] := hy
        _ = a := by ring
    exact hca

/-- Witness for C3 at `a = 3`, `m = 7`. -/
theorem mod_inverse_correct_roundtrip_witness :
    Int.gcd 3 7 = 1 ∧ (1 : ℤ) < 7 ∧
      (∃ b c, mod_inverse 3 7 = some b ∧ ((3 : ℤ) * b) % 7 = 1 ∧
        mod_inverse b 7 = some c ∧ c % 7 = (3 : ℤ) % 7) :=
  ⟨by decide, by decide, mod_inverse_correct_roundtrip 3 7 (by decide) (by decide)⟩

/-- If a difference vanishes modulo `n`, the two sides have equal residues. -/
theorem emod_eq_of_sub_emod_eq_zero {a b n : ℤ} (h : (a - b) % n = 0) :
    a % n = b % n := by
  have hd : n ∣ a - b := Int.dvd_of_emod_eq_zero h
  exact (Int.modEq_iff_dvd.mpr hd).symm

/-- Abstract correctness of the reduced-congruence index: with
`step = g * s1`, `period = g * p1`, `g ∣ (phase - phase0)` and `s1, p1`
coprime, the index computed from the modular inverse lies in `[0, p1)` and
satisfies the original congruence. -/
theorem first_index_aux (period phase0 step phase g s1 p1 : ℤ)
    (hg : 0 < g) (hp1pos : 0 < p1)
    (hstepeq : g * s1 = step) (hpereq : g * p1 = period)
    (hdvd : g ∣ phase - phase0) (hcop : Int.gcd s1 p1 = 1) :
    0 ≤ Int.gcdA s1 p1 % p1 * ((phase - phase0) / g % p1) % p1 ∧
      Int.gcdA s1 p1 % p1 * ((phase - phase0) / g % p1) % p1 < p1 ∧
      (phase0 + Int.gcdA s1 p1 % p1 * ((phase - phase0) / g % p1) % p1 * step - phase)
          % period = 0 := by
  have hdeq : g * ((phase - phase0) / g) = phase - phase0 := Int.mul_ediv_cancel' hdvd
  have hinv : s1 * (Int.gcdA s1 p1 % p1) ≡ 1 [ZMOD p1] := mod_inverse_mul_modeq s1 p1 hcop
  refine ⟨Int.emod_nonneg _ (ne_of_gt hp1pos), Int.emod_lt_of_pos _ hp1pos, ?_⟩
  have hs1i : s1 * (Int.gcdA s1 p1 % p1 * ((phase - phase0) / g % p1) % p1) ≡
      (phase - phase0) / g [ZMOD p1] := by
    calc s1 * (Int.gcdA s1 p1 % p1 * ((phase - phase0) / g % p1) % p1)
        ≡ s1 * (Int.gcdA s1 p1 % p1 * ((phase - phase0) / g % p1)) [ZMOD p1] :=
          Int.ModEq.mul_left s1 (Int.emod_emod_of_dvd _ dvd_rfl)
      _ = s1 * (Int.gcdA s1 p1 % p1) * ((phase - phase0) / g % p1) := by ring
      _ ≡ 1 * ((phase - phase0) / g % p1) [ZMOD p1] := Int.ModEq.mul_right _ hinv
      _ = (phase - phase0) / g % p1 := by ring
      _ ≡ (phase - phase0) / g [ZMOD p1] := Int.emod_emod_of_dvd _ dvd_rfl
  obtain ⟨t, ht⟩ := Int.modEq_iff_dvd.mp hs1i
  generalize hgen : Int.gcdA s1 p1 % p1 * ((phase - phase0) / g % p1) % p1 = I at ht ⊢
  apply Int.emod_eq_zero_of_dvd
  refine ⟨-t, ?_⟩
  calc phase0 + I * step - phase
      = -(g * ((phase - phase0) / g) - g * s1 * I) := by rw [hdeq, hstepeq]; ring
    _ = -g * ((phase - phase0) / g - s1 * I) := by ring
    _ = -g * (p1 * t) := by rw [ht]
    _ = period * -t := by rw [← hpereq]; ring

/-- Computation of `first_index` when the divisibility test passes and the
reduced moduli are coprime: it returns the index formula, provided the final
verification succeeds. -/
theorem first_index_eq_of_checks (period phase0 step phase : ℤ)
    (hd0 : (phase - phase0) % (Int.gcd step period : ℤ) = 0)
    (hcop : Int.gcd (step / (Int.gcd step period : ℤ))
      (period / (Int.gcd step period : ℤ)) = 1)
    (hver : (phase0 +
        Int.gcdA (step / (Int.gcd step period : ℤ)) (period / (Int.gcd step period : ℤ))
            % (period / (Int.gcd step period : ℤ))
          * ((phase - phase0) / (Int.gcd step period : ℤ)
              % (period / (Int.gcd step period : ℤ)))
          % (period / (Int.gcd step period : ℤ)) * step - phase) % period = 0) :
    first_index period phase0 step phase =
      some (Int.gcdA (step / (Int.gcd step period : ℤ))
          (period / (Int.gcd step period : ℤ)) % (period / (Int.gcd step period : ℤ))
        * ((phase - phase0) / (Int.gcd step period : ℤ)
            % (period / (Int.gcd step period : ℤ)))
        % (period / (Int.gcd step period : ℤ))) := by
  simp only [first_index]
  rw [if_neg (not_not_intro hd0), mod_inverse_coprime_some _ _ hcop]
  simp only [Option.some_bind]
  rw [if_pos hver]

/-- When `gcd(step, period)` divides `phase - phase0`, `first_index` returns
an index in `[0, period/gcd)` satisfying the congruence. -/
theorem first_index_spec_of_dvd (period phase0 step phase : ℤ)
    (hper : 0 < period) (hstep : step ≠ 0)
    (hdvd : (Int.gcd step period : ℤ) ∣ phase - phase0) :
    ∃ i, first_index period phase0 step phase = some i ∧ 0 ≤ i ∧
      i < period / (Int.gcd step period : ℤ) ∧
      (phase0 + i * step - phase) % period = 0 := by
  have hgnpos : 0 < Int.gcd step period := Int.gcd_pos_of_ne_zero_left period hstep
  have hg : (0 : ℤ) < (Int.gcd step period : ℤ) := by exact_mod_cast hgnpos
  have hcop : Int.gcd (step / (Int.gcd step period : ℤ))
      (period / (Int.gcd step period : ℤ)) = 1 := Int.gcd_div_gcd_div_gcd hgnpos
  have hstepeq : (Int.gcd step period : ℤ) * (step / (Int.gcd step period : ℤ)) = step :=
    Int.mul_ediv_cancel' Int.gcd_dvd_left
  have hpereq : (Int.gcd step period : ℤ) * (period / (Int.gcd step period : ℤ)) = period :=
    Int.mul_ediv_cancel' Int.gcd_dvd_right
  have hp1pos : 0 < period / (Int.gcd step period : ℤ) := by
    by_contra hcon
    push_neg at hcon
    nlinarith [hpereq]
  obtain ⟨h0, hlt, hver⟩ := first_index_aux period phase0 step phase
    (Int.gcd step period : ℤ) (step / (Int.gcd step period : ℤ))
    (period / (Int.gcd step period : ℤ)) hg hp1pos hstepeq hpereq hdvd hcop
  exact ⟨_, first_index_eq_of_checks period phase0 step phase
    (Int.emod_eq_zero_of_dvd hdvd) hcop hver, h0, hlt, hver⟩

/-- When `gcd(step, period)` does not divide `phase - phase0`, `first_index`
returns the sentinel. -/
theorem first_index_none_of_not_dvd (period phase0 step phase : ℤ)
    (h : ¬ (Int.gcd step period : ℤ) ∣ phase - phase0) :
    first_index period phase0 step phase = none := by
  have hne : (phase - phase0) % (Int.gcd step period : ℤ) ≠ 0 :=
    fun hc => h (Int.dvd_of_emod_eq_zero hc)
  simp only [first_index]
  rw [if_pos hne]

/-- Soundness: any index returned by `first_index` is in `[0, period/gcd)`
and satisfies the congruence. -/
theorem first_index_some_sound (period phase0 step phase i : ℤ)
    (hper : 0 < period) (hstep : step ≠ 0)
    (hres : first_index period phase0 step phase = some i) :
    0 ≤ i ∧ i < period / (Int.gcd step period : ℤ) ∧
      (phase0 + i * step - phase) % period = 0 := by
  by_cases hdvd : (Int.gcd step period : ℤ) ∣ phase - phase0
  · obtain ⟨i0, hfi, h0, hlt, hver⟩ :=
      first_index_spec_of_dvd period phase0 step phase hper hstep hdvd
    rw [hfi] at hres
    injection hres with h
    subst h
    exact ⟨h0, hlt, hver⟩
  · rw [first_index_none_of_not_dvd period phase0 step phase hdvd] at hres
    exact absurd hres (by simp)

/-- Two solution indices below `period/gcd` cannot differ: solutions of the
congruence are unique modulo `period/gcd`. -/
theorem first_index_no_smaller (period phase0 step phase i j : ℤ)
    (hper : 0 < period) (hstep : step ≠ 0)
    (hj : 0 ≤ j) (hij : j < i) (hi : i < period / (Int.gcd step period : ℤ))
    (heq : (phase0 + i * step) % period = (phase0 + j * step) % period) : False := by
  have hgnpos : 0 < Int.gcd step period := Int.gcd_pos_of_ne_zero_left period hstep
  have hg : (0 : ℤ) < (Int.gcd step period : ℤ) := by exact_mod_cast hgnpos
  have hstepeq : (Int.gcd step period : ℤ) * (step / (Int.gcd step period : ℤ)) = step :=
    Int.mul_ediv_cancel' Int.gcd_dvd_left
  have hpereq : (Int.gcd step period : ℤ) * (period / (Int.gcd step period : ℤ)) = period :=
    Int.mul_ediv_cancel' Int.gcd_dvd_right
  have hcop : Int.gcd (step / (Int.gcd step period : ℤ))
      (period / (Int.gcd step period : ℤ)) = 1 := Int.gcd_div_gcd_div_gcd hgnpos
  have hmod : phase0 + j * step ≡ phase0 + i * step [ZMOD period] := heq.symm
  have hdvd : period ∣ (phase0 + i * step) - (phase0 + j * step) :=
    Int.modEq_iff_dvd.mp hmod
  have h3 : (phase0 + i * step) - (phase0 + j * step) =
      (Int.gcd step period : ℤ) * ((i - j) * (step / (Int.gcd step period : ℤ))) := by
    linear_combination (j - i) * hstepeq
  rw [h3] at hdvd
  nth_rewrite 1 [← hpereq] at hdvd
  have h4 : (period / (Int.gcd step period : ℤ)) ∣
      (i - j) * (step / (Int.gcd step period : ℤ)) :=
    (mul_dvd_mul_iff_left (ne_of_gt hg)).mp hdvd
  have hco : IsCoprime (period / (Int.gcd step period : ℤ))
      (step / (Int.gcd step period : ℤ)) :=
    (Int.isCoprime_iff_gcd_eq_one.mpr hcop).symm
  have h5 : (period / (Int.gcd step period : ℤ)) ∣ i - j := hco.dvd_of_dvd_mul_right h4
  have h6 : (period / (Int.gcd step period : ℤ)) ≤ i - j :=
    Int.le_of_dvd (by omega) h5
  linarith

/-- `gcd(step, period)` divides `(phase - phase0) mod period` exactly when it
divides `phase - phase0`, because it divides `period`. -/
theorem gcd_dvd_emod_iff (period phase0 step phase : ℤ) :
    (Int.gcd step period : ℤ) ∣ (phase - phase0) % period ↔
      (Int.gcd step period : ℤ) ∣ phase - phase0 := by
  have hgp : (Int.gcd step period : ℤ) ∣ period := Int.gcd_dvd_right
  constructor
  · intro h
    have h2 : (phase - phase0) % period % (Int.gcd step period : ℤ) =
        (phase - phase0) % (Int.gcd step period : ℤ) :=
      Int.emod_emod_of_dvd _ hgp
    have h3 : (phase - phase0) % period % (Int.gcd step period : ℤ) = 0 :=
      Int.emod_eq_zero_of_dvd h
    rw [h2] at h3
    exact Int.dvd_of_emod_eq_zero h3
  · intro h
    rw [Int.emod_def]
    exact dvd_sub h (hgp.mul_right _)

/-- C1: whenever `first_index` returns an index, that index is non-negative,
its phase `(phase0 + i*step) mod period` is the requested one, and no smaller
non-negative index has that phase: the result is minimal. -/
theorem first_index_minimal (period phase0 step phase i : ℤ)
    (hper : 0 < period) (hstep : step ≠ 0)
    (hph00 : 0 ≤ phase0) (hph0lt : phase0 < period)
    (hph0 : 0 ≤ phase) (hphlt : phase < period)
    (hres : first_index period phase0 step phase = some i) :
    0 ≤ i ∧ (phase0 + i * step) % period = phase ∧
      ∀ j, 0 ≤ j → j < i → (phase0 + j * step) % period ≠ phase := by
  obtain ⟨h0, hlt, hver⟩ := first_index_some_sound period phase0 step phase i hper hstep hres
  have hcong : (phase0 + i * step) % period = phase % period :=
    emod_eq_of_sub_emod_eq_zero hver
  have hphase : phase % period = phase := Int.emod_eq_of_lt hph0 hphlt
  refine ⟨h0, by rw [hcong, hphase], ?_⟩
  intro j hj0 hji hjeq
  exact first_index_no_smaller period phase0 step phase i j hper hstep hj0 hji hlt
    (by rw [hcong, hphase, hjeq])

/-- Witness for C1 at `period = 4, phase0 = 1, step = 3, phase = 2`, where the
returned index is `3`. -/
theorem first_index_minimal_witness :
    0 ≤ (3 : ℤ) ∧ ((1 : ℤ) + 3 * 3) % 4 = 2 ∧
      ∀ j, 0 ≤ j → j < (3 : ℤ) → ((1 : ℤ) + j * 3) % 4 ≠ 2 :=
  first_index_minimal 4 1 3 2 3 (by decide) (by decide) (by decide) (by decide)
    (by decide) (by decide)
    (by norm_num [first_index, mod_inverse, Int.gcdA, Nat.gcdA, Nat.xgcd,
      Nat.xgcdAux_rec, Nat.xgcd_zero_left])

/-- C2: for positive period, arbitrary integer phases and nonzero step,
`first_index` returns the sentinel exactly when `gcd(|step|, period)` does
not divide `(phase - phase0) mod period`; otherwise it returns a valid
(congruence-satisfying) non-negative index, never a wrong one. -/
theorem first_index_sentinel_iff (period phase0 step phase : ℤ)
    (hper : 0 < period) (hstep : step ≠ 0) :
    (first_index period phase0 step phase = none ↔
      ¬ (Int.gcd step period : ℤ) ∣ (phase - phase0) % period) ∧
      ∀ i, first_index period phase0 step phase = some i →
        0 ≤ i ∧ (phase0 + i * step) % period = phase % period := by
  constructor
  · constructor
    · intro hnone hdvd
      rw [gcd_dvd_emod_iff] at hdvd
      obtain ⟨i0, hfi, _, _, _⟩ :=
        first_index_spec_of_dvd period phase0 step phase hper hstep hdvd
      rw [hfi] at hnone
      cases hnone
    · intro hnd
      apply first_index_none_of_not_dvd
      intro hdvd
      exact hnd ((gcd_dvd_emod_iff period phase0 step phase).mpr hdvd)
  · intro i hsome
    obtain ⟨h0, _, hver⟩ :=
      first_index_some_sound period phase0 step phase i hper hstep hsome
    exact ⟨h0, emod_eq_of_sub_emod_eq_zero hver⟩

/-- Witness for C2 at `period = 4, phase0 = 1, step = 3, phase = 2`. -/
theorem first_index_sentinel_iff_witness :
    (first_index 4 1 3 2 = none ↔
      ¬ (Int.gcd 3 4 : ℤ) ∣ ((2 : ℤ) - 1) % 4) ∧
      ∀ i, first_index 4 1 3 2 = some i →
        0 ≤ i ∧ ((1 : ℤ) + i * 3) % 4 = (2 : ℤ) % 4 :=
  first_index_sentinel_iff 4 1 3 2 (by decide) (by decide)

/-- C4 (counterexample): with `period = 4, phase0 = 1, step = 4` the phase of
every index is `(1 + 4*i) mod 4 = 1`, so the documented table is not
reproduced: the query for phase `0` returns the sentinel, not index `1`. -/
theorem first_index_doc_table_step4_fails : first_index 4 1 4 0 = none := by decide

/-- C4 (amended): the documented table marks container positions `0, 3, 6, 9`,
i.e. slicing step `3`, not `4`: with `period = 4, phase0 = 1, step = 3`,
the phases `1, 0, 3, 2` have first indices `0, 1, 2, 3` respectively. -/
theorem first_index_doc_table_step3 :
    first_index 4 1 3 1 = some 0 ∧ first_index 4 1 3 0 = some 1 ∧
      first_index 4 1 3 3 = some 2 ∧ first_index 4 1 3 2 = some 3 := by
  refine ⟨?_, ?_, ?_, ?_⟩ <;>
    norm_num [first_index, mod_inverse, Int.gcdA, Nat.gcdA, Nat.xgcd,
      Nat.xgcdAux_rec, Nat.xgcd_zero_left]

/-- Invariant-based termination of the `expm1` series loop: starting from a
state whose term is bounded by `(7/20)(7/30)^j |x|` and whose partial sum is
within `21/46 |x|` of `x` (with the geometric tail budgeted), the loop ends in
`some` once `j + fuel` reaches `26`, because the term shrinks by at least
`7/30` per iteration while the sum stays at least `25/46 |x|`. -/
theorem expm1Go_isSome_of_inv (x : ℚ) (hx : 0 < |x|) (hb7 : |x| ≤ 7 / 10) :
    ∀ (fuel j : ℕ) (sum term : ℚ),
      |term| ≤ 7 / 20 * (7 / 30) ^ j * |x| →
      |sum - x| + 30 / 23 * (7 / 20 * (7 / 30) ^ j * |x|) ≤ 21 / 46 * |x| →
      26 ≤ j + fuel →
      (numerics.expm1Go x sum term (j + 2) fuel).isSome := by
  intro fuel
  induction fuel with
  | zero =>
    intro j sum term ht hs hj
    simp only [numerics.expm1Go]
    have hB : (0 : ℚ) ≤ 7 / 20 * (7 / 30) ^ j * |x| := by positivity
    have hsx : |sum - x| ≤ 21 / 46 * |x| := by linarith
    have hsum : 25 / 46 * |x| ≤ |sum| := by
      have htri : |x| - |sum| ≤ |x - sum| := abs_sub_abs_le_abs_sub x sum
      rw [abs_sub_comm x sum] at htri
      linarith
    have hjj : 26 ≤ j := by omega
    have hpow : ((7 : ℚ) / 30) ^ j ≤ ((1 : ℚ) / 4) ^ 26 := by
      calc ((7 : ℚ) / 30) ^ j ≤ ((1 : ℚ) / 4) ^ j := by
            apply pow_le_pow_left₀ (by norm_num) (by norm_num)
        _ ≤ ((1 : ℚ) / 4) ^ 26 := pow_le_pow_of_le_one (by norm_num) (by norm_num) hjj
    have hterm : |term| ≤ 7 / 20 * ((1 : ℚ) / 4) ^ 26 * |x| := by
      nlinarith [abs_nonneg x]
    have hkey : |term| ≤ |sum| * machineEpsilon := by
      have h1 : (7 : ℚ) / 20 * ((1 : ℚ) / 4) ^ 26 * |x| ≤
          25 / 46 * |x| * ((1 : ℚ) / 4) ^ 26 := by nlinarith [hx.le]
      have h2 : 25 / 46 * |x| * ((1 : ℚ) / 4) ^ 26 ≤ |sum| * ((1 : ℚ) / 4) ^ 26 := by
        nlinarith [hsum]
      have h3 : machineEpsilon = ((1 : ℚ) / 4) ^ 26 := by norm_num [machineEpsilon]
      rw [h3]
      linarith
    rw [if_neg (not_lt.mpr hkey)]
    rfl
  | succ k ih =>
    intro j sum term ht hs hj
    simp only [numerics.expm1Go]
    by_cases hg : |term| > |sum| * machineEpsilon
    · rw [if_pos hg]
      have harg : (j + 2) + 1 = (j + 1) + 2 := by omega
      rw [harg]
      apply ih (j + 1)
      · have hj0 : (0 : ℚ) ≤ (j : ℚ) := Nat.cast_nonneg j
        have hcpos : (0 : ℚ) < ((j + 2 : ℕ) : ℚ) + 1 := by push_cast; linarith
        rw [abs_mul, abs_div, abs_of_pos hcpos]
        have hxc : |x| / (((j + 2 : ℕ) : ℚ) + 1) ≤ 7 / 30 := by
          rw [div_le_iff₀ hcpos]
          push_cast
          nlinarith
        calc |term| * (|x| / (((j + 2 : ℕ) : ℚ) + 1))
            ≤ 7 / 20 * (7 / 30) ^ j * |x| * (7 / 30) := by
              apply mul_le_mul ht hxc (by positivity) (by positivity)
          _ = 7 / 20 * (7 / 30) ^ (j + 1) * |x| := by ring
      · have habs : |sum + term - x| ≤ |sum - x| + |term| := by
          calc |sum + term - x| = |(sum - x) + term| := by ring_nf
            _ ≤ |sum - x| + |term| := abs_add _ _
        have hpowsucc : ((7 : ℚ) / 30) ^ (j + 1) = (7 / 30) ^ j * (7 / 30) :=
          pow_succ _ _
        rw [hpowsucc]
        nlinarith [ht, hs, habs]
      · omega
    · rw [if_neg hg]
      rfl

/-- C7: for every nonzero `x` with `|x| ≤ ln 2`, the Taylor-series loop of
the fallback `expm1` terminates from its initial state (`sum = x`,
`term = x²/2`, `n = 2`): 26 iterations of fuel suffice for the guard to
become false, so `expm1` is total on this domain (for any external `exp`
and any branch threshold). -/
theorem expm1_series_terminates (expFn : ℚ → ℚ) (ln2 : ℚ) (x : ℚ) (hx : x ≠ 0)
    (hb : |(x : ℝ)| ≤ Real.log 2) :
    (numerics.expm1Go x x (x * x / 2) 2 26).isSome ∧
      (numerics.expm1 expFn ln2 26 x).isSome := by
  have habs : (0 : ℚ) < |x| := abs_pos.mpr hx
  have hb7 : |x| ≤ (7 : ℚ) / 10 := by
    have h1 : |(x : ℝ)| < 0.7 :=
      lt_of_le_of_lt hb (lt_of_lt_of_le Real.log_two_lt_d9 (by norm_num))
    have h2 : ((|x| : ℚ) : ℝ) = |(x : ℝ)| := by push_cast; rfl
    have h3 : ((|x| : ℚ) : ℝ) ≤ (((7 : ℚ) / 10 : ℚ) : ℝ) := by
      rw [h2]
      push_cast
      linarith
    exact_mod_cast h3
  have ht : |x * x / 2| ≤ 7 / 20 * ((7 : ℚ) / 30) ^ 0 * |x| := by
    rw [pow_zero, abs_div, abs_mul]
    have h2 : |(2 : ℚ)| = 2 := by norm_num
    rw [h2]
    nlinarith [habs, hb7]
  have hs : |x - x| + 30 / 23 * (7 / 20 * ((7 : ℚ) / 30) ^ 0 * |x|) ≤ 21 / 46 * |x| := by
    have h4 : (30 : ℚ) / 23 * (7 / 20 * 1 * |x|) = 21 / 46 * |x| := by ring
    rw [sub_self, abs_zero, pow_zero, zero_add, h4]
  have hloop : (numerics.expm1Go x x (x * x / 2) (0 + 2) 26).isSome :=
    expm1Go_isSome_of_inv x habs hb7 26 0 x (x * x / 2) ht hs (by omega)
  refine ⟨hloop, ?_⟩
  by_cases hln : |x| > ln2
  · simp [numerics.expm1, hx, hln]
  · simp only [numerics.expm1, if_neg hx, if_neg hln]
    exact hloop

/-- Witness for C7 at `x = 1/2` (which is below `ln 2`). -/
theorem expm1_series_terminates_witness :
    (numerics.expm1Go (1 / 2) (1 / 2) (1 / 2 * (1 / 2) / 2) 2 26).isSome ∧
      (numerics.expm1 id (6931 / 10000) 26 (1 / 2)).isSome := by
  have hx : (1 / 2 : ℚ) ≠ 0 := by norm_num
  have hb : |((1 / 2 : ℚ) : ℝ)| ≤ Real.log 2 := by
    have h1 : (0.6931471803 : ℝ) < Real.log 2 := Real.log_two_gt_d9
    have h2 : |((1 / 2 : ℚ) : ℝ)| = 1 / 2 := by norm_num
    rw [h2]
    linarith
  exact expm1_series_terminates id (6931 / 10000) (1 / 2) hx hb

/-- C8: registering a factory under a key that is already bound in the family
fails with the duplicate-registration condition, and never silently
overwrites: no successful result is possible. -/
theorem registerFactory_duplicate_fails {F : Type} (reg : List (String × F))
    (key : String) (f0 f : F) (hbound : reg.lookup key = some f0) :
    registerFactory reg key f = Except.error RegistryError.duplicateRegistration ∧
      ∀ reg2, registerFactory reg key f ≠ Except.ok reg2 := by
  have hsome : (reg.lookup key).isSome := by rw [hbound]; rfl
  constructor
  · simp [registerFactory, hsome]
  · intro reg2
    simp [registerFactory, hsome]

/-- Witness for C8: re-registering the already-bound key `one_to_one`. -/
theorem registerFactory_duplicate_fails_witness :
    registerFactory [("one_to_one", (0 : ℕ))] "one_to_one" 1 =
        Except.error RegistryError.duplicateRegistration ∧
      ∀ reg2, registerFactory [("one_to_one", (0 : ℕ))] "one_to_one" 1 ≠ Except.ok reg2 :=
  registerFactory_duplicate_fails [("one_to_one", 0)] "one_to_one" 0 1 (by decide)
